import Mathlib

/-
  Verification of the arithmetic/cryptographic core of src/app.py
  (modular arithmetic, extended Euclid, modular inverse, primality by
  trial division, Caesar and Vigenere ciphers, RSA key generation and
  encryption, Chinese Remainder Theorem solver, Fermat verifier).

  Python semantics conventions used throughout the embedding:
  the Python remainder operator on integers rounds toward negative
  infinity, so a % m is Int.fmod a m and a // m is Int.fdiv a m.
  Python exceptions become Except String results carrying the message
  raised by the source.  Python strings become List Char, and the
  ASCII fragment of str.upper() is Char.toUpper (the cipher code only
  distinguishes the letters A..Z, which this fragment covers exactly).
-/

namespace App

/-- Bound used to justify termination of the Euclidean recursions:
the Python-style remainder strictly shrinks in absolute value. -/
theorem fmod_natAbs_lt (a b : Int) (hb : b ≠ 0) : (a.fmod b).natAbs < b.natAbs := by
  rcases a with m | m <;> rcases b with n | n
  · rcases m with _ | m
    · have hn : n ≠ 0 := by rintro rfl; exact hb rfl
      simp [Int.fmod]
      omega
    · have hn : n ≠ 0 := by rintro rfl; exact hb rfl
      have h1 : Int.fmod (Int.ofNat (m + 1)) (Int.ofNat n) = Int.ofNat ((m + 1) % n) := rfl
      rw [h1]
      simpa using Nat.mod_lt _ (Nat.pos_of_ne_zero hn)
  · rcases m with _ | m
    · simp [Int.fmod]
    · have h1 : Int.fmod (Int.ofNat (m + 1)) (Int.negSucc n) = Int.subNatNat (m % n.succ) n := rfl
      rw [h1, Int.subNatNat_eq_coe]
      have h2 : m % n.succ < n.succ := Nat.mod_lt _ (Nat.succ_pos n)
      have h3 : (Int.negSucc n).natAbs = n + 1 := rfl
      rw [h3]
      omega
  · have hn : n ≠ 0 := by rintro rfl; exact hb rfl
    have h1 : Int.fmod (Int.negSucc m) (Int.ofNat n) = Int.subNatNat n (m % n).succ := rfl
    rw [h1, Int.subNatNat_eq_coe]
    have h2 : m % n < n := Nat.mod_lt _ (Nat.pos_of_ne_zero hn)
    have h3 : (Int.ofNat n).natAbs = n := rfl
    rw [h3]
    omega
  · have h1 : Int.fmod (Int.negSucc m) (Int.negSucc n) = -Int.ofNat (m.succ % n.succ) := rfl
    rw [h1, Int.natAbs_neg]
    have h2 : m.succ % n.succ < n.succ := Nat.mod_lt _ (Nat.succ_pos n)
    have h3 : (Int.negSucc n).natAbs = n + 1 := rfl
    rw [h3]
    simpa using h2

/-- Range of the Python remainder for a positive modulus. -/
theorem fmod_bounds (a b : Int) (hb : 0 < b) : 0 ≤ a.fmod b ∧ a.fmod b < b := by
  rw [Int.fmod_eq_emod a hb.le]
  exact ⟨Int.emod_nonneg a hb.ne.symm, Int.emod_lt_of_pos a hb⟩

/-- mod_add from src/app.py lines 10-12: ((a + b) % m + m) % m. -/
def mod_add (a b m : Int) : Int := ((a + b).fmod m + m).fmod m

/-- mod_subtract from src/app.py lines 14-16: ((a - b) % m + m) % m. -/
def mod_subtract (a b m : Int) : Int := ((a - b).fmod m + m).fmod m

/-- mod_multiply from src/app.py lines 18-20: ((a * b) % m + m) % m. -/
def mod_multiply (a b m : Int) : Int := ((a * b).fmod m + m).fmod m

/-- Loop of mod_power from src/app.py lines 24-31: square-and-multiply,
halving exp and squaring base each round, folding base into result on
odd exponents. -/
def mod_power_loop (base exp m result : Int) : Int :=
  if h : exp > 0 then
    mod_power_loop ((base * base).fmod m) (exp.fdiv 2) m
      (if exp.fmod 2 = 1 then (result * base).fmod m else result)
  else result
termination_by exp.toNat
decreasing_by
  have h2 : exp.fdiv 2 = exp / 2 := Int.fdiv_eq_ediv exp (by omega)
  omega

/-- mod_power from src/app.py lines 22-31; base is pre-reduced mod m
and the running result starts at 1. -/
def mod_power (base exp m : Int) : Int := mod_power_loop (base.fmod m) exp m 1

/-- gcd from src/app.py lines 33-37: iterative Euclid, while b: a, b = b, a % b. -/
def gcd (a b : Int) : Int :=
  if b = 0 then a else gcd b (a.fmod b)
termination_by b.natAbs
decreasing_by exact fmod_natAbs_lt a b (by assumption)

/-- extended_gcd from src/app.py lines 39-46: returns (g, x, y) with the
back-substitution x = y1, y = x1 - (a // b) * y1. -/
def extended_gcd (a b : Int) : Int × Int × Int :=
  if b = 0 then (a, 1, 0)
  else
    let r := extended_gcd b (a.fmod b)
    (r.1, r.2.2, r.2.1 - (a.fdiv b) * r.2.2)
termination_by b.natAbs
decreasing_by exact fmod_natAbs_lt a b (by assumption)

/-- mod_inverse from src/app.py lines 48-53: raises ValueError when the
gcd returned by extended_gcd is not 1, else normalizes x into [0, m). -/
def mod_inverse (a m : Int) : Except String Int :=
  if (extended_gcd a m).1 ≠ 1 then .error ("Modular inverse does not exist")
  else .ok (((extended_gcd a m).2.1.fmod m + m).fmod m)

/-- Trial-division loop of is_prime, src/app.py lines 63-65: odd
candidates i = 3, 5, ... up to stop inclusive. -/
def is_prime_loop (n : Int) (i : Nat) (stop : Nat) : Bool :=
  if h : i ≤ stop then
    if n.fmod (i : Int) = 0 then false else is_prime_loop n (i + 2) stop
  else true
termination_by stop + 2 - i
decreasing_by omega

/-- is_prime from src/app.py lines 55-66.  The Python bound
int(math.sqrt(n)) is modeled as Nat.sqrt n.toNat, the floor of the real
square root, which is what the float computation produces on every input
whose square root the float representation resolves exactly enough
(all moduli this service handles). -/
def is_prime (n : Int) : Bool :=
  if n < 2 then false
  else if n = 2 then true
  else if n.fmod 2 = 0 then false
  else is_prime_loop n 3 (Nat.sqrt n.toNat)

/-- caesar_cipher from src/app.py lines 72-84: uppercase the text, shift
letters inside the ring A..Z by shift mod 26 (26 - shift mod 26 when
decrypting), pass other characters through. -/
def caesar_cipher (text : List Char) (shift : Int) (decrypt : Bool) : List Char :=
  let s : Int := if decrypt then (26 - shift).fmod 26 else shift.fmod 26
  (text.map Char.toUpper).map (fun c =>
    if 'A' ≤ c ∧ c ≤ 'Z' then
      Char.ofNat ((((c.toNat : Int) - 65 + s).fmod 26).toNat + 65)
    else c)

/-- Loop of vigenere_cipher, src/app.py lines 92-101: a key position
counter advances only on letters; indexing the key with an empty key is
the Python ZeroDivisionError raised by key_index % 0. -/
def vigenere_loop (key_upper : List Char) (decrypt : Bool) :
    List Char → Nat → Except String (List Char)
  | [], _ => .ok []
  | c :: rest, key_index =>
    if 'A' ≤ c ∧ c ≤ 'Z' then
      if hk : key_upper.length = 0 then
        .error ("integer division or modulo by zero")
      else
        let kc := key_upper.get ⟨key_index % key_upper.length,
          Nat.mod_lt _ (Nat.pos_of_ne_zero hk)⟩
        let shift : Int := if decrypt then -((kc.toNat : Int) - 65) else (kc.toNat : Int) - 65
        match vigenere_loop key_upper decrypt rest (key_index + 1) with
        | .error s => .error s
        | .ok r =>
          .ok (Char.ofNat (((((c.toNat : Int) - 65 + shift).fmod 26 + 26).fmod 26).toNat + 65) :: r)
    else
      match vigenere_loop key_upper decrypt rest key_index with
      | .error s => .error s
      | .ok r => .ok (c :: r)

/-- vigenere_cipher from src/app.py lines 86-103. -/
def vigenere_cipher (text key : List Char) (decrypt : Bool) : Except String (List Char) :=
  vigenere_loop (key.map Char.toUpper) decrypt (text.map Char.toUpper) 0

/-- RSA key material returned by generate_rsa_keys, src/app.py lines 127-132. -/
structure RSAKeys where
  n : Int
  e : Int
  d : Int
  phi : Int
deriving DecidableEq

/-- Totality support: the primality check only accepts n at least 2
(src/app.py line 57). -/
theorem is_prime_two_le (n : Int) (h : is_prime n = true) : 2 ≤ n := by
  by_contra hc
  rw [is_prime, if_pos (by omega : n < 2)] at h
  exact Bool.false_ne_true h

/-- Totality support for the public-exponent search of src/app.py
line 122: some odd candidate e + 2k is coprime to phi, so the while loop
terminates.  Witness: k with e + 2k = 1 + phi * (e - 1). -/
theorem find_e_exists (phi e : Int) (hphi : 1 ≤ phi) (he3 : 3 ≤ e)
    (he2 : e.fmod 2 = 1) : ∃ k : Nat, gcd (e + 2 * (k : Int)) phi = 1 := by
  have he2' : e % 2 = 1 := by rwa [Int.fmod_eq_emod e (by omega : (0:Int) ≤ 2)] at he2
  have heven : Even ((e - 1) * (phi - 1)) := by
    refine Even.mul_right ?_ _
    rcases Int.even_or_odd e with he | he
    · rcases he with ⟨t, ht⟩; omega
    · rcases he with ⟨t, ht⟩; refine ⟨t, by omega⟩
  have hprodnn : 0 ≤ (e - 1) * (phi - 1) := mul_nonneg (by omega) (by omega)
  refine ⟨((e - 1) * (phi - 1) / 2).toNat, ?_⟩
  have hdiv : 2 * ((e - 1) * (phi - 1) / 2) = (e - 1) * (phi - 1) := by
    rcases heven with ⟨t, ht⟩
    omega
  have hcast : ((((e - 1) * (phi - 1) / 2).toNat : Nat) : Int) = (e - 1) * (phi - 1) / 2 :=
    Int.toNat_of_nonneg (by omega)
  rw [hcast]
  have hx : e + 2 * ((e - 1) * (phi - 1) / 2) = 1 + phi * (e - 1) := by
    rw [hdiv]
    ring
  rw [hx]
  have gcd_one_right : ∀ z : Int, gcd z 1 = 1 := by
    intro z
    rw [gcd, if_neg (by omega : (1:Int) ≠ 0)]
    have hz : z.fmod 1 = 0 := by
      rw [Int.fmod_eq_emod z (by omega : (0:Int) ≤ 1)]
      exact Int.emod_one z
    rw [hz, gcd, if_pos rfl]
  rcases eq_or_lt_of_le hphi with h1 | h1
  · have : phi = 1 := h1.symm
    subst this
    exact gcd_one_right _
  · have hmod : (1 + phi * (e - 1)).fmod phi = 1 := by
      rw [Int.fmod_eq_emod _ (by omega : (0:Int) ≤ phi)]
      rw [Int.add_mul_emod_self_left]
      exact Int.emod_eq_of_lt (by omega) (by omega)
    rw [gcd, if_neg (by omega : phi ≠ 0), hmod]
    exact gcd_one_right phi

/-- Public-exponent search of src/app.py lines 122-123:
while gcd(e, phi) != 1: e += 2. -/
def find_e_loop (phi e : Int) (h : ∃ k : Nat, gcd (e + 2 * (k : Int)) phi = 1) : Int :=
  if hg : gcd e phi = 1 then e
  else
    find_e_loop phi (e + 2) (by
      obtain ⟨k, hk⟩ := h
      cases k with
      | zero => exact absurd (by simpa using hk) hg
      | succ k2 =>
        refine ⟨k2, ?_⟩
        have harg : e + 2 + 2 * (k2 : Int) = e + 2 * ((k2 + 1 : Nat) : Int) := by
          push_cast
          ring
        rw [harg]
        exact hk)
termination_by Nat.find h
decreasing_by
  have hspec := Nat.find_spec h
  have hne : Nat.find h ≠ 0 := by
    intro h0
    rw [h0] at hspec
    exact hg (by simpa using hspec)
  have hm : gcd (e + 2 + 2 * ((Nat.find h - 1 : Nat) : Int)) phi = 1 := by
    have harg : e + 2 + 2 * ((Nat.find h - 1 : Nat) : Int) = e + 2 * ((Nat.find h : Nat) : Int) := by
      push_cast [Nat.cast_sub (by omega : 1 ≤ Nat.find h)]
      ring
    rw [harg]
    exact hspec
  exact Nat.lt_of_le_of_lt (Nat.find_min' _ hm) (by omega)

/-- Choice of the RSA public exponent, src/app.py lines 117-123: seed
65537, falling back to 3 when the seed is at least phi, then searching
upward in steps of 2. -/
def rsa_choose_e (phi : Int) (hphi : 1 ≤ phi) : Int :=
  find_e_loop phi (if 65537 ≥ phi then 3 else 65537)
    (find_e_exists phi (if 65537 ≥ phi then 3 else 65537) hphi
      (by split <;> omega)
      (by split <;> decide))

/-- generate_rsa_keys from src/app.py lines 109-132. -/
def generate_rsa_keys (p q : Int) : Except String RSAKeys :=
  if hpq : is_prime p = true ∧ is_prime q = true then
    have hphi : 1 ≤ (p - 1) * (q - 1) := by
      have hp2 := is_prime_two_le p hpq.1
      have hq2 := is_prime_two_le q hpq.2
      nlinarith
    match mod_inverse (rsa_choose_e ((p - 1) * (q - 1)) hphi) ((p - 1) * (q - 1)) with
    | .error s => .error s
    | .ok d => .ok ⟨p * q, rsa_choose_e ((p - 1) * (q - 1)) hphi, d, (p - 1) * (q - 1)⟩
  else .error ("Both p and q must be prime")

/-- rsa_encrypt from src/app.py lines 134-136. -/
def rsa_encrypt (message e n : Int) : Int := mod_power message e n

/-- rsa_decrypt from src/app.py lines 138-140. -/
def rsa_decrypt (ciphertext d n : Int) : Int := mod_power ciphertext d n

/-- Product of the moduli, src/app.py lines 151-153 (also recomputed by
the /api/crt/solve endpoint at lines 397-399 to report the modulus). -/
def crt_modulus (moduli : List Int) : Int := moduli.foldl (fun acc m => acc * m) 1

/-- Accumulation loop of chinese_remainder_theorem, src/app.py lines
155-159, over the index-aligned (remainder, modulus) pairs.  A zero
modulus raises Python's ZeroDivisionError at M // moduli[i]. -/
def crt_loop (M : Int) : List (Int × Int) → Except String Int
  | [] => .ok 0
  | (r, mi) :: rest =>
    if mi = 0 then .error ("integer division or modulo by zero")
    else
      match mod_inverse (M.fdiv mi) mi with
      | .error s => .error s
      | .ok yi =>
        match crt_loop M rest with
        | .error s => .error s
        | .ok x => .ok (r * M.fdiv mi * yi + x)

/-- chinese_remainder_theorem from src/app.py lines 146-161. -/
def chinese_remainder_theorem (remainders moduli : List Int) : Except String Int :=
  if remainders.length ≠ moduli.length then
    .error ("Remainders and moduli must have same length")
  else
    match crt_loop (crt_modulus moduli) (remainders.zip moduli) with
    | .error s => .error s
    | .ok x => .ok (x.fmod (crt_modulus moduli))

/-- Result of fermat_little_theorem, src/app.py lines 180-183. -/
structure FermatResult where
  result : Int
  steps : List (Nat × Int)
deriving DecidableEq

/-- fermat_little_theorem from src/app.py lines 167-183: requires a prime
p, computes a^(p-1) mod p and up to min(10, p-1) intermediate powers. -/
def fermat_little_theorem (a p : Int) : Except String FermatResult :=
  if is_prime p = true then
    .ok ⟨mod_power a (p - 1) p,
      (List.range (min (10 : Int) (p - 1)).toNat).map
        (fun i => (i + 1, mod_power a ((i : Int) + 1) p))⟩
  else .error ("p must be prime")

/-! Basic properties of the embedded arithmetic. -/

/-- Reduction mod m is a ModEq identity. -/
theorem emod_self_modEq (x m : Int) : x % m ≡ x [ZMOD m] :=
  Int.emod_emod_of_dvd x dvd_rfl

/-- The ((x % m) + m) % m normalization pattern of the source collapses
to the mathematical remainder for a positive modulus. -/
theorem double_fmod (x m : Int) (hm : 0 < m) : (x.fmod m + m).fmod m = x % m := by
  rw [Int.fmod_eq_emod _ hm.le, Int.fmod_eq_emod _ hm.le,
    show x % m + m = x % m + m * 1 by ring, Int.add_mul_emod_self_left,
    Int.emod_emod_of_dvd x dvd_rfl]

theorem mod_add_eq (a b m : Int) (hm : 0 < m) : mod_add a b m = (a + b) % m := by
  rw [mod_add, double_fmod _ _ hm]

theorem mod_subtract_eq (a b m : Int) (hm : 0 < m) : mod_subtract a b m = (a - b) % m := by
  rw [mod_subtract, double_fmod _ _ hm]

theorem mod_multiply_eq (a b m : Int) (hm : 0 < m) : mod_multiply a b m = (a * b) % m := by
  rw [mod_multiply, double_fmod _ _ hm]

/-- Invariant of the square-and-multiply loop: for a positive exponent it
computes result * base ^ exp reduced mod m. -/
theorem mod_power_loop_spec (m : Int) (hm : 0 < m) :
    ∀ (n : Nat) (exp : Int), exp.toNat ≤ n → 0 < exp → ∀ (base result : Int),
      mod_power_loop base exp m result = (result * base ^ exp.toNat) % m := by
  intro n
  induction n with
  | zero => intro exp h1 h2; omega
  | succ k ih =>
    intro exp h1 h2 base result
    rw [mod_power_loop, dif_pos h2]
    have hq : exp.fdiv 2 = exp / 2 := Int.fdiv_eq_ediv exp (by omega)
    have hf2 : exp.fmod 2 = exp % 2 := Int.fmod_eq_emod exp (by omega)
    rw [hq, hf2]
    by_cases hq0 : exp / 2 = 0
    · have hexp1 : exp = 1 := by omega
      subst hexp1
      rw [hq0, mod_power_loop, dif_neg (by omega : ¬(0:Int) > 0)]
      rw [if_pos (by decide : (1:Int) % 2 = 1)]
      rw [Int.fmod_eq_emod _ hm.le]
      simp
    · have hqpos : 0 < exp / 2 := by omega
      have hqle : (exp / 2).toNat ≤ k := by omega
      rw [ih (exp / 2) hqle hqpos]
      have hbb : (base * base).fmod m = (base * base) % m := Int.fmod_eq_emod _ hm.le
      rw [hbb]
      have hcong : ((base * base) % m) ^ (exp / 2).toNat ≡ (base * base) ^ (exp / 2).toNat [ZMOD m] :=
        (emod_self_modEq (base * base) m).pow _
      rcases Int.emod_two_eq exp with h2 | h2
      · rw [if_neg (by omega)]
        have hexp : exp.toNat = 2 * (exp / 2).toNat := by omega
        have step : result * ((base * base) % m) ^ (exp / 2).toNat ≡
            result * (base * base) ^ (exp / 2).toNat [ZMOD m] :=
          (Int.ModEq.refl result).mul hcong
        rw [show (result * ((base * base) % m) ^ (exp / 2).toNat) % m =
            (result * (base * base) ^ (exp / 2).toNat) % m from step]
        rw [hexp]
        congr 1
        rw [two_mul, pow_add]
        ring
      · rw [if_pos h2]
        rw [Int.fmod_eq_emod (result * base) hm.le]
        have hexp : exp.toNat = 2 * (exp / 2).toNat + 1 := by omega
        have step : ((result * base) % m) * ((base * base) % m) ^ (exp / 2).toNat ≡
            (result * base) * (base * base) ^ (exp / 2).toNat [ZMOD m] :=
          (emod_self_modEq (result * base) m).mul hcong
        rw [show (((result * base) % m) * ((base * base) % m) ^ (exp / 2).toNat) % m =
            ((result * base) * (base * base) ^ (exp / 2).toNat) % m from step]
        rw [hexp]
        congr 1
        rw [two_mul, pow_add, pow_add, pow_one]
        ring

/-- mod_power computes the mathematical power-then-reduce for a positive
exponent and positive modulus. -/
theorem mod_power_spec (base exp m : Int) (hm : 0 < m) (he : 0 < exp) :
    mod_power base exp m = base ^ exp.toNat % m := by
  rw [mod_power, mod_power_loop_spec m hm exp.toNat exp le_rfl he, one_mul,
    Int.fmod_eq_emod base hm.le]
  exact (emod_self_modEq base m).pow _

/-- mod_power returns the initial accumulator 1 whenever the loop body
never runs, i.e. on any non-positive exponent. -/
theorem mod_power_of_nonpos (base exp m : Int) (he : exp ≤ 0) :
    mod_power base exp m = 1 := by
  rw [mod_power, mod_power_loop, dif_neg (by omega : ¬exp > 0)]

theorem mod_power_range (base exp m : Int) (hm : 0 < m) (he : 0 < exp) :
    0 ≤ mod_power base exp m ∧ mod_power base exp m < m := by
  rw [mod_power_spec base exp m hm he]
  exact ⟨Int.emod_nonneg _ hm.ne.symm, Int.emod_lt_of_pos _ hm⟩

/-! Correctness of the Euclidean algorithms. -/

/-- The iterative gcd of the source and the first component of
extended_gcd follow the same recursion. -/
theorem gcd_eq_egcd_fst (a b : Int) : gcd a b = (extended_gcd a b).1 := by
  induction a, b using gcd.induct with
  | case1 a => rw [gcd, extended_gcd]; simp
  | case2 a b hb ih => rw [gcd, extended_gcd, if_neg hb, if_neg hb]; exact ih

/-- Bezout identity returned by extended_gcd. -/
theorem egcd_bezout (a b : Int) :
    a * (extended_gcd a b).2.1 + b * (extended_gcd a b).2.2 = (extended_gcd a b).1 := by
  induction a, b using extended_gcd.induct with
  | case1 a => rw [extended_gcd]; simp
  | case2 a b hb ih =>
    rw [extended_gcd, if_neg hb]
    dsimp only
    have hab := Int.fdiv_add_fmod a b
    linear_combination ih - (extended_gcd b (a.fmod b)).2.2 * hab

/-- The first component of extended_gcd divides both arguments. -/
theorem egcd_fst_dvd (a b : Int) : (extended_gcd a b).1 ∣ a ∧ (extended_gcd a b).1 ∣ b := by
  induction a, b using extended_gcd.induct with
  | case1 a => rw [extended_gcd]; simp
  | case2 a b hb ih =>
    rw [extended_gcd, if_neg hb]
    dsimp only
    refine ⟨?_, ih.1⟩
    have hab := Int.fdiv_add_fmod a b
    have hsum := dvd_add (ih.1.mul_right (a.fdiv b)) ih.2
    rwa [hab] at hsum

/-- Positivity of the gcd value on a positive second argument. -/
theorem egcd_fst_pos (a b : Int) : 0 < b → 0 < (extended_gcd a b).1 := by
  induction a, b using extended_gcd.induct with
  | case1 a => intro h; omega
  | case2 a b hb ih =>
    intro h
    rw [extended_gcd, if_neg hb]
    dsimp only
    rcases fmod_bounds a b h with ⟨h0, h1⟩
    rcases eq_or_lt_of_le h0 with h2 | h2
    · rw [← h2, extended_gcd]
      simpa using h
    · exact ih h2

/-- On a positive second argument, extended_gcd returns the true gcd. -/
theorem egcd_fst_eq_gcd (a b : Int) (hb : 0 < b) :
    (extended_gcd a b).1 = Int.gcd a b := by
  have hd := egcd_fst_dvd a b
  have hpos := egcd_fst_pos a b hb
  apply Int.dvd_antisymm hpos.le (Int.natCast_nonneg _)
  · exact Int.dvd_gcd hd.1 hd.2
  · have hbez := egcd_bezout a b
    have h1 : (↑(Int.gcd a b) : Int) ∣
        a * (extended_gcd a b).2.1 + b * (extended_gcd a b).2.2 :=
      dvd_add (Int.gcd_dvd_left.mul_right _) (Int.gcd_dvd_right.mul_right _)
    rwa [hbez] at h1

/-- The while-loop gcd of src/app.py agrees with the mathematical gcd for
a positive second argument. -/
theorem gcd_eq_int_gcd (a b : Int) (hb : 0 < b) : gcd a b = Int.gcd a b := by
  rw [gcd_eq_egcd_fst, egcd_fst_eq_gcd a b hb]

/-! Specification of mod_inverse. -/

theorem mod_inverse_err (a m : Int) (hm : 0 < m) (h : Int.gcd a m ≠ 1) :
    mod_inverse a m = .error ("Modular inverse does not exist") := by
  rw [mod_inverse, if_pos]
  rw [egcd_fst_eq_gcd a m hm]
  exact fun hc => h (by exact_mod_cast hc)

theorem mod_inverse_ok (a m : Int) (hm : 0 < m) (h : Int.gcd a m = 1) :
    ∃ v, mod_inverse a m = .ok v ∧ 0 ≤ v ∧ v < m ∧ a * v ≡ 1 [ZMOD m] := by
  rw [mod_inverse, if_neg (not_not_intro (by
    rw [egcd_fst_eq_gcd a m hm]; exact_mod_cast h))]
  refine ⟨_, rfl, ?_, ?_, ?_⟩
  · exact (fmod_bounds _ m hm).1
  · exact (fmod_bounds _ m hm).2
  · rw [double_fmod _ m hm]
    have h1 := egcd_bezout a m
    rw [egcd_fst_eq_gcd a m hm, h] at h1
    have h2 : a * ((extended_gcd a m).2.1 % m) ≡ a * (extended_gcd a m).2.1 [ZMOD m] :=
      (emod_self_modEq _ m).mul_left a
    refine h2.trans ?_
    rw [Int.modEq_iff_dvd]
    exact ⟨(extended_gcd a m).2.2, by push_cast at h1; linarith⟩

/-! Completeness of the trial-division primality test. -/

/-- The trial loop accepts when no probed candidate divides n. -/
theorem is_prime_loop_true (n : Int) (i stop : Nat) :
    (∀ j : Nat, i ≤ j → j ≤ stop → n.fmod (j : Int) ≠ 0) →
    is_prime_loop n i stop = true := by
  induction i, stop using is_prime_loop.induct n with
  | case1 i stop hle hdvd =>
    intro h
    exact absurd hdvd (h i le_rfl hle)
  | case2 i stop hle hdvd ih =>
    intro h
    rw [is_prime_loop, dif_pos hle, if_neg hdvd]
    exact ih (fun j hj1 hj2 => h j (by omega) hj2)
  | case3 i stop hgt =>
    intro _
    rw [is_prime_loop, dif_neg hgt]

/-- Every mathematical prime at least 2 passes is_prime. -/
theorem is_prime_complete (p : Int) (hp2 : 2 ≤ p) (hp : Prime p) : is_prime p = true := by
  rw [is_prime, if_neg (by omega : ¬p < 2)]
  by_cases h2 : p = 2
  · rw [if_pos h2]
  · rw [if_neg h2]
    have hT : p.toNat.Prime := by
      have hnat := Int.prime_iff_natAbs_prime.mp hp
      have habs : p.natAbs = p.toNat := by omega
      rwa [habs] at hnat
    have hT3 : 3 ≤ p.toNat := by
      have := hT.two_le
      omega
    have hodd : p.toNat % 2 = 1 := Nat.odd_iff.mp (hT.odd_of_ne_two (by omega))
    rw [if_neg (by
      rw [Int.fmod_eq_emod _ (by omega : (0:Int) ≤ 2)]
      omega)]
    apply is_prime_loop_true
    intro j hj3 hjs habs
    have hj0 : (0:Int) ≤ (j : Int) := by positivity
    rw [Int.fmod_eq_emod _ hj0] at habs
    have hdvd : (j : Int) ∣ p := Int.dvd_of_emod_eq_zero habs
    have hdvdN : j ∣ p.toNat := by
      have hcast : ((p.toNat : Nat) : Int) = p := Int.toNat_of_nonneg (by omega)
      rw [← hcast] at hdvd
      exact_mod_cast hdvd
    rcases hT.eq_one_or_self_of_dvd j hdvdN with h1 | h1
    · omega
    · have hsq : j * j ≤ p.toNat := Nat.le_sqrt.mp hjs
      rw [h1] at hsq
      nlinarith

/-! Specification of the RSA public-exponent search and key generation. -/

/-- The search loop returns a candidate at least its seed whose
source-gcd with phi is 1. -/
theorem find_e_loop_spec (phi e : Int) (h : ∃ k : Nat, gcd (e + 2 * (k : Int)) phi = 1) :
    gcd (find_e_loop phi e h) phi = 1 ∧ e ≤ find_e_loop phi e h := by
  induction e, h using find_e_loop.induct phi with
  | case1 e h hg =>
    rw [find_e_loop, dif_pos hg]
    exact ⟨hg, le_rfl⟩
  | case2 e h hg ih =>
    rw [find_e_loop, dif_neg hg]
    exact ⟨ih.1, by linarith [ih.2]⟩

theorem rsa_choose_e_spec (phi : Int) (hphi : 1 ≤ phi) :
    Int.gcd (rsa_choose_e phi hphi) phi = 1 ∧ 3 ≤ rsa_choose_e phi hphi := by
  have h := find_e_loop_spec phi (if 65537 ≥ phi then 3 else 65537)
    (find_e_exists phi (if 65537 ≥ phi then 3 else 65537) hphi
      (by split <;> omega) (by split <;> decide))
  constructor
  · have h1 := h.1
    rw [gcd_eq_int_gcd _ phi (by omega)] at h1
    rw [rsa_choose_e]
    exact_mod_cast h1
  · have h2 := h.2
    rw [rsa_choose_e]
    have : (3:Int) ≤ (if 65537 ≥ phi then 3 else 65537) := by split <;> omega
    linarith

/-- Key generation succeeds on inputs passing is_prime and produces
keys with the advertised arithmetic relations. -/
theorem generate_rsa_keys_spec (p q : Int) (hp : is_prime p = true) (hq : is_prime q = true) :
    ∃ K : RSAKeys, generate_rsa_keys p q = .ok K ∧ K.n = p * q ∧
      K.phi = (p - 1) * (q - 1) ∧ 3 ≤ K.e ∧ Int.gcd K.e K.phi = 1 ∧
      0 ≤ K.d ∧ K.d < K.phi ∧ K.e * K.d ≡ 1 [ZMOD K.phi] := by
  have hp2 := is_prime_two_le p hp
  have hq2 := is_prime_two_le q hq
  have hphi : 1 ≤ (p - 1) * (q - 1) := by nlinarith
  have hch := rsa_choose_e_spec ((p - 1) * (q - 1)) hphi
  obtain ⟨v, hok, hv0, hv1, hvcong⟩ :=
    mod_inverse_ok (rsa_choose_e ((p - 1) * (q - 1)) hphi) ((p - 1) * (q - 1)) (by omega) hch.1
  refine ⟨⟨p * q, rsa_choose_e ((p - 1) * (q - 1)) hphi, v, (p - 1) * (q - 1)⟩,
    ?_, rfl, rfl, hch.2, hch.1, hv0, hv1, hvcong⟩
  rw [generate_rsa_keys, dif_pos ⟨hp, hq⟩]
  dsimp only
  rw [hok]

/-! Number-theoretic core of the RSA round trip and the Fermat verifier. -/

/-- Fermat step: for a prime P and exponent of the shape 1 + k * ((P-1) * R),
every integer is fixed by that power modulo P. -/
theorem rsa_fermat_step (P : Nat) (hP : P.Prime) (x : Int) (E k R : Nat)
    (hE : E = 1 + k * ((P - 1) * R)) : x ^ E ≡ x [ZMOD (P : Int)] := by
  haveI : Fact P.Prime := ⟨hP⟩
  have hzm : ((x ^ E : Int) : ZMod P) = ((x : Int) : ZMod P) := by
    push_cast
    by_cases hx : (x : ZMod P) = 0
    · rw [hx]
      rw [zero_pow (by omega : E ≠ 0)]
    · rw [hE, show 1 + k * ((P - 1) * R) = 1 + (P - 1) * (k * R) by ring]
      rw [pow_add, pow_mul, pow_one]
      rw [ZMod.pow_card_sub_one_eq_one hx]
      simp
  exact (ZMod.intCast_eq_intCast_iff _ _ _).mp hzm

/-- RSA round trip for distinct primes: raising to e then d modulo p*q
recovers any message in [0, p*q). -/
theorem rsa_roundtrip_core (p q : Int) (hp2 : 2 ≤ p) (hq2 : 2 ≤ q)
    (hpP : Prime p) (hqP : Prime q) (hne : p ≠ q) (e d : Int)
    (he1 : 1 ≤ e) (hd1 : 1 ≤ d) (hcong : e * d ≡ 1 [ZMOD (p - 1) * (q - 1)])
    (msg : Int) (h0 : 0 ≤ msg) (hn : msg < p * q) :
    rsa_decrypt (rsa_encrypt msg e (p * q)) d (p * q) = msg := by
  have hnpos : 0 < p * q := by positivity
  have hphi2 : 2 ≤ (p - 1) * (q - 1) := by
    rcases lt_or_gt_of_ne hne with h | h
    · nlinarith
    · nlinarith
  -- the exponents as naturals
  set E := e.toNat with hE
  set D := d.toNat with hD
  have hEe : (E : Int) = e := Int.toNat_of_nonneg (by omega)
  have hDd : (D : Int) = d := Int.toNat_of_nonneg (by omega)
  have hEpos : 0 < E := by omega
  have hDpos : 0 < D := by omega
  -- reduce encrypt/decrypt to powers
  rw [rsa_encrypt, rsa_decrypt, mod_power_spec msg e (p * q) hnpos (by omega),
    mod_power_spec _ d (p * q) hnpos (by omega)]
  have hpow : (msg ^ E % (p * q)) ^ D ≡ msg ^ (E * D) [ZMOD p * q] := by
    have h1 : (msg ^ E % (p * q)) ^ D ≡ (msg ^ E) ^ D [ZMOD p * q] :=
      (emod_self_modEq (msg ^ E) (p * q)).pow D
    rw [← pow_mul] at h1
    exact h1
  -- the combined exponent decomposes through phi
  obtain ⟨t, ht⟩ := Int.modEq_iff_dvd.mp hcong
  have htnn : 0 ≤ -t := by nlinarith [mul_pos (by omega : (0:Int) < (p-1)) (by omega : (0:Int) < (q-1))]
  set P := p.toNat with hPdef
  set Q := q.toNat with hQdef
  have hPp : (P : Int) = p := Int.toNat_of_nonneg (by omega)
  have hQq : (Q : Int) = q := Int.toNat_of_nonneg (by omega)
  have hPprime : P.Prime := by
    have hnat := Int.prime_iff_natAbs_prime.mp hpP
    have habs : p.natAbs = P := by omega
    rwa [habs] at hnat
  have hQprime : Q.Prime := by
    have hnat := Int.prime_iff_natAbs_prime.mp hqP
    have habs : q.natAbs = Q := by omega
    rwa [habs] at hnat
  have hED : E * D = 1 + (-t).toNat * ((P - 1) * (Q - 1)) := by
    have hcast : ((E * D : Nat) : Int) = ((1 + (-t).toNat * ((P - 1) * (Q - 1)) : Nat) : Int) := by
      push_cast [Nat.cast_sub (by omega : 1 ≤ P), Nat.cast_sub (by omega : 1 ≤ Q),
        Int.toNat_of_nonneg htnn, hEe, hDd, hPp, hQq]
      nlinarith [ht]
    exact_mod_cast hcast
  have hmodp : msg ^ (E * D) ≡ msg [ZMOD (P : Int)] :=
    rsa_fermat_step P hPprime msg (E * D) (-t).toNat (Q - 1) hED
  have hmodq : msg ^ (E * D) ≡ msg [ZMOD (Q : Int)] := by
    refine rsa_fermat_step Q hQprime msg (E * D) (-t).toNat (P - 1) ?_
    rw [hED]
    ring
  rw [hPp] at hmodp
  rw [hQq] at hmodq
  have hcop : IsCoprime p q := by
    rw [Int.isCoprime_iff_gcd_eq_one]
    have hPQ : P ≠ Q := by omega
    have hcopN : Nat.Coprime P Q := (Nat.coprime_primes hPprime hQprime).mpr hPQ
    have : Int.gcd p q = Nat.gcd P Q := by
      unfold Int.gcd
      congr 1 <;> omega
    rw [this]
    exact hcopN
  have hmodn : msg ^ (E * D) ≡ msg [ZMOD p * q] := by
    rw [Int.modEq_iff_dvd] at hmodp hmodq ⊢
    exact hcop.mul_dvd hmodp hmodq
  have hfinal : (msg ^ E % (p * q)) ^ D ≡ msg [ZMOD p * q] := hpow.trans hmodn
  calc (msg ^ E % (p * q)) ^ D % (p * q)
      = msg % (p * q) := hfinal
    _ = msg := Int.emod_eq_of_lt h0 hn

/-- The Fermat verifier accepts a prime p and reports result 1 whenever
the base is coprime to p. -/
theorem fermat_result_one (a p : Int) (hp2 : 2 ≤ p) (hp : Prime p)
    (hgcd : Int.gcd a p = 1) :
    ∃ F : FermatResult, fermat_little_theorem a p = .ok F ∧ F.result = 1 := by
  rw [fermat_little_theorem, if_pos (is_prime_complete p hp2 hp)]
  refine ⟨_, rfl, ?_⟩
  dsimp only
  rw [mod_power_spec a (p - 1) p (by omega) (by omega)]
  set P := p.toNat with hPdef
  have hPp : (P : Int) = p := Int.toNat_of_nonneg (by omega)
  have hPprime : P.Prime := by
    have hnat := Int.prime_iff_natAbs_prime.mp hp
    have habs : p.natAbs = P := by omega
    rwa [habs] at hnat
  haveI : Fact P.Prime := ⟨hPprime⟩
  have hx : (a : ZMod P) ≠ 0 := by
    intro h0
    have hdvd : ((P : Nat) : Int) ∣ a := (ZMod.intCast_zmod_eq_zero_iff_dvd a P).mp h0
    have hdvdN : P ∣ a.natAbs := by
      rw [← Int.natAbs_dvd_natAbs] at hdvd
      simpa using hdvd
    have hPg : P ∣ Int.gcd a p := Nat.dvd_gcd hdvdN (by
      have hh : p.natAbs = P := by omega
      rw [hh])
    rw [hgcd] at hPg
    have := Nat.le_of_dvd (by omega) hPg
    omega
  have hone : (a : ZMod P) ^ (P - 1) = 1 := ZMod.pow_card_sub_one_eq_one hx
  have hzm : ((a ^ (p - 1).toNat : Int) : ZMod P) = ((1 : Int) : ZMod P) := by
    push_cast
    rw [show (p - 1).toNat = P - 1 by omega, hone]
  have hmod : a ^ (p - 1).toNat ≡ 1 [ZMOD (P : Int)] :=
    (ZMod.intCast_eq_intCast_iff _ _ _).mp hzm
  rw [hPp] at hmod
  calc a ^ (p - 1).toNat % p = 1 % p := hmod
    _ = 1 := Int.emod_eq_of_lt (by omega) (by omega)

/-! Character-level facts used by the cipher proofs. -/

theorem letter_iff (c : Char) : ('A' ≤ c ∧ c ≤ 'Z') ↔ (65 ≤ c.toNat ∧ c.toNat ≤ 90) := by
  constructor
  · rintro ⟨h1, h2⟩
    rw [Char.le_def] at h1 h2
    exact ⟨h1, h2⟩
  · rintro ⟨h1, h2⟩
    rw [Char.le_def, Char.le_def]
    exact ⟨h1, h2⟩

theorem ofNat_shift_toNat : ∀ v : Nat, v < 26 → (Char.ofNat (v + 65)).toNat = v + 65 := by decide

theorem ofNat_shift_letter :
    ∀ v : Nat, v < 26 → 'A' ≤ Char.ofNat (v + 65) ∧ Char.ofNat (v + 65) ≤ 'Z' := by decide

theorem toUpper_eq_self (c : Char) (h : ¬(c.toNat ≥ 97 ∧ c.toNat ≤ 122)) : c.toUpper = c := by
  rw [Char.toUpper]
  exact if_neg h

theorem toUpper_toNat_lower (c : Char) (h : c.toNat ≥ 97 ∧ c.toNat ≤ 122) :
    c.toUpper.toNat = c.toNat - 32 := by
  rw [Char.toUpper]
  rw [if_pos h]
  have hv : c.toNat - 32 = (c.toNat - 97) + 65 := by omega
  rw [hv]
  exact ofNat_shift_toNat _ (by omega)

theorem toUpper_idem (c : Char) : c.toUpper.toUpper = c.toUpper := by
  by_cases h : c.toNat ≥ 97 ∧ c.toNat ≤ 122
  · have ht := toUpper_toNat_lower c h
    exact toUpper_eq_self _ (by omega)
  · rw [toUpper_eq_self c h]
    exact toUpper_eq_self c h

/-! Caesar cipher round trip. -/

theorem caesar_cons_enc (c : Char) (cs : List Char) (shift : Int) :
    caesar_cipher (c :: cs) shift false =
      (if 'A' ≤ c.toUpper ∧ c.toUpper ≤ 'Z' then
        Char.ofNat ((((c.toUpper.toNat : Int) - 65 + shift.fmod 26).fmod 26).toNat + 65)
      else c.toUpper) :: caesar_cipher cs shift false := rfl

theorem caesar_cons_dec (c : Char) (cs : List Char) (shift : Int) :
    caesar_cipher (c :: cs) shift true =
      (if 'A' ≤ c.toUpper ∧ c.toUpper ≤ 'Z' then
        Char.ofNat ((((c.toUpper.toNat : Int) - 65 + (26 - shift).fmod 26).fmod 26).toNat + 65)
      else c.toUpper) :: caesar_cipher cs shift true := rfl

theorem caesar_round_trip (text : List Char) (shift : Int) :
    caesar_cipher (caesar_cipher text shift false) shift true = text.map Char.toUpper := by
  induction text with
  | nil => rfl
  | cons c cs ih =>
    rw [caesar_cons_enc c cs shift]
    by_cases hL : 65 ≤ c.toUpper.toNat ∧ c.toUpper.toNat ≤ 90
    · rw [if_pos ((letter_iff _).mpr hL)]
      have hvb := fmod_bounds ((c.toUpper.toNat : Int) - 65 + shift.fmod 26) 26 (by omega)
      set v := (((c.toUpper.toNat : Int) - 65 + shift.fmod 26).fmod 26).toNat with hvdef
      have hv26 : v < 26 := by omega
      rw [caesar_cons_dec, ih]
      rw [toUpper_eq_self (Char.ofNat (v + 65)) (by
        rw [ofNat_shift_toNat v hv26]
        omega)]
      rw [if_pos (ofNat_shift_letter v hv26)]
      rw [ofNat_shift_toNat v hv26]
      have hvint : (v : Int) = ((c.toUpper.toNat : Int) - 65 + shift % 26) % 26 := by
        rw [hvdef, Int.fmod_eq_emod _ (by omega : (0:Int) ≤ 26),
          Int.fmod_eq_emod _ (by omega : (0:Int) ≤ 26)]
        exact Int.toNat_of_nonneg (by
          rw [← Int.fmod_eq_emod _ (by omega : (0:Int) ≤ 26)]
          exact (fmod_bounds _ 26 (by omega)).1)
      have hw : ((((v + 65 : Nat) : Int) - 65 + (26 - shift).fmod 26).fmod 26).toNat + 65 =
          c.toUpper.toNat := by
        rw [Int.fmod_eq_emod _ (by omega : (0:Int) ≤ 26),
          Int.fmod_eq_emod _ (by omega : (0:Int) ≤ 26)]
        omega
      rw [hw, Char.ofNat_toNat, List.map_cons]
    · rw [if_neg (fun hc => hL ((letter_iff _).mp hc))]
      rw [caesar_cons_dec, ih, toUpper_idem]
      rw [if_neg (fun hc => hL ((letter_iff _).mp hc))]
      rw [List.map_cons]

/-! Vigenere cipher: loop unfolding lemmas and round trip. -/

theorem vig_cons_letter_enc (keyU : List Char) (hk : ¬keyU.length = 0) (c : Char)
    (cs : List Char) (ki : Nat) (hL : 'A' ≤ c ∧ c ≤ 'Z') (kc : Char)
    (hkc : keyU.get ⟨ki % keyU.length, Nat.mod_lt _ (Nat.pos_of_ne_zero hk)⟩ = kc)
    (out : List Char) (hout : vigenere_loop keyU false cs (ki + 1) = .ok out) :
    vigenere_loop keyU false (c :: cs) ki = .ok
      (Char.ofNat ((((((c.toNat : Int) - 65 + ((kc.toNat : Int) - 65)).fmod 26) + 26).fmod 26).toNat
        + 65) :: out) := by
  subst hkc
  rw [vigenere_loop, if_pos hL, dif_neg hk]
  dsimp only
  rw [hout]
  rfl

theorem vig_cons_letter_dec (keyU : List Char) (hk : ¬keyU.length = 0) (c : Char)
    (cs : List Char) (ki : Nat) (hL : 'A' ≤ c ∧ c ≤ 'Z') (kc : Char)
    (hkc : keyU.get ⟨ki % keyU.length, Nat.mod_lt _ (Nat.pos_of_ne_zero hk)⟩ = kc)
    (out : List Char) (hout : vigenere_loop keyU true cs (ki + 1) = .ok out) :
    vigenere_loop keyU true (c :: cs) ki = .ok
      (Char.ofNat ((((((c.toNat : Int) - 65 + -((kc.toNat : Int) - 65)).fmod 26) + 26).fmod 26).toNat
        + 65) :: out) := by
  subst hkc
  rw [vigenere_loop, if_pos hL, dif_neg hk]
  dsimp only
  rw [hout]
  rfl

theorem vig_cons_nonletter (keyU : List Char) (d : Bool) (c : Char) (cs : List Char) (ki : Nat)
    (hL : ¬('A' ≤ c ∧ c ≤ 'Z')) (out : List Char)
    (hout : vigenere_loop keyU d cs ki = .ok out) :
    vigenere_loop keyU d (c :: cs) ki = .ok (c :: out) := by
  rw [vigenere_loop, if_neg hL, hout]

/-- Round trip of the Vigenere loop on upper-fixed character streams. -/
theorem vigenere_loop_round (keyU : List Char) (hk : ¬keyU.length = 0) :
    ∀ (chars : List Char) (ki : Nat), (∀ c ∈ chars, c.toUpper = c) →
    ∃ out, vigenere_loop keyU false chars ki = .ok out ∧
      vigenere_loop keyU true (out.map Char.toUpper) ki = .ok chars := by
  intro chars
  induction chars with
  | nil =>
    intro ki _
    exact ⟨[], rfl, rfl⟩
  | cons c cs ih =>
    intro ki hfix
    by_cases hL : 'A' ≤ c ∧ c ≤ 'Z'
    · obtain ⟨out, hout, hback⟩ := ih (ki + 1) (fun x hx => hfix x (List.mem_cons_of_mem c hx))
      have hLn := (letter_iff c).mp hL
      set kc := keyU.get ⟨ki % keyU.length, Nat.mod_lt _ (Nat.pos_of_ne_zero hk)⟩ with hkc
      set w := (((((c.toNat : Int) - 65 + ((kc.toNat : Int) - 65)).fmod 26) + 26).fmod 26).toNat
        with hwdef
      have hw26 : w < 26 := by
        have h1 := fmod_bounds ((((c.toNat : Int) - 65 + ((kc.toNat : Int) - 65)).fmod 26) + 26)
          26 (by omega)
        omega
      refine ⟨Char.ofNat (w + 65) :: out, ?_, ?_⟩
      · exact vig_cons_letter_enc keyU hk c cs ki hL kc hkc.symm out hout
      · have hstep := vig_cons_letter_dec keyU hk (Char.ofNat (w + 65)) (out.map Char.toUpper) ki
          (ofNat_shift_letter w hw26) kc hkc.symm cs hback
        rw [ofNat_shift_toNat w hw26] at hstep
        have hwint : (w : Int) =
            (((c.toNat : Int) - 65 + ((kc.toNat : Int) - 65)) % 26 + 26) % 26 := by
          rw [hwdef, Int.fmod_eq_emod _ (by omega : (0:Int) ≤ 26),
            Int.fmod_eq_emod _ (by omega : (0:Int) ≤ 26)]
          exact Int.toNat_of_nonneg (Int.emod_nonneg _ (by omega))
        have hval : ((((((w + 65 : Nat) : Int) - 65 + -((kc.toNat : Int) - 65)).fmod 26) + 26).fmod
            26).toNat + 65 = c.toNat := by
          rw [Int.fmod_eq_emod _ (by omega : (0:Int) ≤ 26),
            Int.fmod_eq_emod _ (by omega : (0:Int) ≤ 26)]
          omega
        rw [hval, Char.ofNat_toNat] at hstep
        rw [List.map_cons,
          toUpper_eq_self (Char.ofNat (w + 65)) (by rw [ofNat_shift_toNat w hw26]; omega)]
        exact hstep
    · obtain ⟨out, hout, hback⟩ := ih ki (fun x hx => hfix x (List.mem_cons_of_mem c hx))
      refine ⟨c :: out, vig_cons_nonletter keyU false c cs ki hL out hout, ?_⟩
      rw [List.map_cons, hfix c (List.mem_cons_self c cs)]
      exact vig_cons_nonletter keyU true c (out.map Char.toUpper) ki hL cs hback

/-- Full-cipher round trip with a non-empty key. -/
theorem vigenere_round_trip (text key : List Char) (hkey : key ≠ []) :
    ∃ enc, vigenere_cipher text key false = .ok enc ∧
      vigenere_cipher enc key true = .ok (text.map Char.toUpper) := by
  have hk : ¬(key.map Char.toUpper).length = 0 := by
    intro h
    exact hkey (List.length_eq_zero.mp (by simpa using h))
  obtain ⟨out, hout, hback⟩ := vigenere_loop_round (key.map Char.toUpper) hk
    (text.map Char.toUpper) 0 (fun c hc => by
      obtain ⟨x, hx, rfl⟩ := List.mem_map.mp hc
      exact toUpper_idem x)
  exact ⟨out, hout, hback⟩

/-! Vigenere with an empty key: behavior of the ZeroDivisionError path. -/

theorem vig_empty_ok (d : Bool) : ∀ (chars : List Char) (ki : Nat),
    (∀ c ∈ chars, ¬('A' ≤ c ∧ c ≤ 'Z')) → vigenere_loop [] d chars ki = .ok chars := by
  intro chars
  induction chars with
  | nil => intro ki _; rfl
  | cons c cs ih =>
    intro ki h
    have hc := h c (List.mem_cons_self c cs)
    exact vig_cons_nonletter [] d c cs ki hc cs (ih ki (fun x hx => h x (List.mem_cons_of_mem c hx)))

theorem vig_empty_err (d : Bool) : ∀ (chars : List Char) (ki : Nat),
    (∃ c ∈ chars, 'A' ≤ c ∧ c ≤ 'Z') →
    vigenere_loop [] d chars ki = .error ("integer division or modulo by zero") := by
  intro chars
  induction chars with
  | nil =>
    intro ki h
    simp at h
  | cons c cs ih =>
    intro ki h
    by_cases hc : 'A' ≤ c ∧ c ≤ 'Z'
    · have h0 : (([] : List Char)).length = 0 := rfl
      rw [vigenere_loop, if_pos hc, dif_pos h0]
    · obtain ⟨x, hx, hxL⟩ := h
      rcases List.mem_cons.mp hx with rfl | hx2
      · exact absurd hxL hc
      · rw [vigenere_loop, if_neg hc, ih ki ⟨x, hx2, hxL⟩]

/-! Chinese Remainder Theorem machinery. -/

theorem crt_modulus_eq_prod (l : List Int) : crt_modulus l = l.prod := by
  rw [crt_modulus, List.prod_eq_foldl]

theorem exact_fdiv (M m k : Int) (hm : m ≠ 0) (hMk : M = m * k) : M.fdiv m = k := by
  subst hMk
  rw [mul_comm, Int.mul_fdiv_cancel _ hm]

/-- A product of list elements each coprime to x is coprime to x. -/
theorem list_coprime_prod (l : List Int) (x : Int) :
    (∀ b ∈ l, IsCoprime b x) → IsCoprime l.prod x := by
  induction l with
  | nil => intro _; simpa using isCoprime_one_left
  | cons c rest ih =>
    intro h
    rw [List.prod_cons]
    exact (h c (List.mem_cons_self c rest)).mul_left
      (ih (fun b hb => h b (List.mem_cons_of_mem c hb)))

/-- For a member m of a pairwise-coprime list of positive moduli, the
cofactor prod/m is coprime to m. -/
theorem coprime_fdiv_of_mem : ∀ (ms : List Int), (∀ m ∈ ms, 0 < m) →
    ms.Pairwise (fun a b => Int.gcd a b = 1) →
    ∀ m ∈ ms, Int.gcd (ms.prod.fdiv m) m = 1 := by
  intro ms
  induction ms with
  | nil => intro _ _ m hm; simp at hm
  | cons a rest ih =>
    intro hpos hpw m hm
    have hpw2 := List.pairwise_cons.mp hpw
    have ha : 0 < a := hpos a (List.mem_cons_self a rest)
    rcases List.mem_cons.mp hm with rfl | hm2
    · have hdiv : (m :: rest).prod.fdiv m = rest.prod := by
        apply exact_fdiv _ _ _ (by omega)
        rw [List.prod_cons]
      rw [hdiv, Int.gcd_eq_one_iff_coprime]
      exact list_coprime_prod rest m (fun b hb =>
        (Int.gcd_eq_one_iff_coprime.mp (hpw2.1 b hb)).symm)
    · have hmpos : 0 < m := hpos m hm
      obtain ⟨k, hk⟩ := List.dvd_prod hm2
      have hdiv : (a :: rest).prod.fdiv m = a * k := by
        apply exact_fdiv _ _ _ (by omega)
        rw [List.prod_cons, hk]
        ring
      have hdiv2 : rest.prod.fdiv m = k := exact_fdiv _ _ _ (by omega) hk
      have hih := ih (fun z hz => hpos z (List.mem_cons_of_mem a hz)) hpw2.2 m hm2
      rw [hdiv2] at hih
      rw [hdiv, Int.gcd_eq_one_iff_coprime]
      exact (Int.gcd_eq_one_iff_coprime.mp (hpw2.1 m hm2)).mul_left
        (Int.gcd_eq_one_iff_coprime.mp hih)

/-- Distinct positions of a positive list divide each other's cofactors. -/
theorem pairwise_dvd_fdiv : ∀ (ms : List Int), (∀ m ∈ ms, 0 < m) →
    ms.Pairwise (fun a b => a ∣ ms.prod.fdiv b ∧ b ∣ ms.prod.fdiv a) := by
  intro ms
  induction ms with
  | nil => intro _; exact List.Pairwise.nil
  | cons c rest ih =>
    intro hpos
    have hc : 0 < c := hpos c (List.mem_cons_self c rest)
    have hposr : ∀ m ∈ rest, 0 < m := fun z hz => hpos z (List.mem_cons_of_mem c hz)
    refine List.pairwise_cons.mpr ⟨?_, ?_⟩
    · intro b hb
      have hbpos : 0 < b := hposr b hb
      obtain ⟨k, hk⟩ := List.dvd_prod hb
      constructor
      · have hdiv : (c :: rest).prod.fdiv b = c * k := by
          apply exact_fdiv _ _ _ (by omega)
          rw [List.prod_cons, hk]
          ring
        rw [hdiv]
        exact Dvd.intro k rfl
      · have hdiv : (c :: rest).prod.fdiv c = rest.prod := by
          apply exact_fdiv _ _ _ (by omega)
          rw [List.prod_cons]
        rw [hdiv]
        exact List.dvd_prod hb
    · refine List.Pairwise.imp_of_mem ?_ (ih hposr)
      intro a b ha hb hrel
      have hapos : 0 < a := hposr a ha
      have hbpos : 0 < b := hposr b hb
      obtain ⟨ka, hka⟩ := List.dvd_prod ha
      obtain ⟨kb, hkb⟩ := List.dvd_prod hb
      have hda : (c :: rest).prod.fdiv a = c * ka := by
        apply exact_fdiv _ _ _ (by omega)
        rw [List.prod_cons, hka]
        ring
      have hdb : (c :: rest).prod.fdiv b = c * kb := by
        apply exact_fdiv _ _ _ (by omega)
        rw [List.prod_cons, hkb]
        ring
      have hra : rest.prod.fdiv a = ka := exact_fdiv _ _ _ (by omega) hka
      have hrb : rest.prod.fdiv b = kb := exact_fdiv _ _ _ (by omega) hkb
      rw [hra, hrb] at hrel
      rw [hda, hdb]
      exact ⟨hrel.1.mul_left c, hrel.2.mul_left c⟩

/-- A pairwise-coprime list of common divisors gives a product divisor. -/
theorem pairwise_coprime_prod_dvd : ∀ (ms : List Int) (z : Int),
    ms.Pairwise (fun a b => Int.gcd a b = 1) → (∀ m ∈ ms, m ∣ z) → ms.prod ∣ z := by
  intro ms
  induction ms with
  | nil => intro z _ _; simpa using one_dvd z
  | cons c rest ih =>
    intro z hpw hdvd
    have hpw2 := List.pairwise_cons.mp hpw
    have hcop : IsCoprime c rest.prod := by
      have := list_coprime_prod rest c (fun b hb =>
        (Int.gcd_eq_one_iff_coprime.mp (hpw2.1 b hb)).symm)
      exact this.symm
    rw [List.prod_cons]
    exact hcop.mul_dvd (hdvd c (List.mem_cons_self c rest))
      (ih z hpw2.2 (fun m hm => hdvd m (List.mem_cons_of_mem c hm)))

/-- Full specification of the CRT accumulation loop. -/
theorem crt_loop_spec (M : Int) : ∀ (pairs : List (Int × Int)),
    (∀ p ∈ pairs, 0 < p.2 ∧ Int.gcd (M.fdiv p.2) p.2 = 1) →
    pairs.Pairwise (fun p q => p.2 ∣ M.fdiv q.2 ∧ q.2 ∣ M.fdiv p.2) →
    ∃ x, crt_loop M pairs = .ok x ∧
      (∀ i (hi : i < pairs.length),
        x ≡ (pairs.get ⟨i, hi⟩).1 [ZMOD (pairs.get ⟨i, hi⟩).2]) ∧
      (∀ t : Int, (∀ p ∈ pairs, t ∣ M.fdiv p.2) → t ∣ x) := by
  intro pairs
  induction pairs with
  | nil =>
    intro _ _
    exact ⟨0, rfl, fun i hi => absurd hi (by simp), fun t _ => dvd_zero t⟩
  | cons p rest ih =>
    obtain ⟨r0, m0⟩ := p
    intro h1 h2
    obtain ⟨hm0, hgcd0⟩ := h1 (r0, m0) (List.mem_cons_self _ rest)
    obtain ⟨y0, hy0ok, hy00, hy01, hy0c⟩ := mod_inverse_ok (M.fdiv m0) m0 hm0 hgcd0
    have hpw2 := List.pairwise_cons.mp h2
    obtain ⟨xr, hxr, hxrc, hxrd⟩ :=
      ih (fun q hq => h1 q (List.mem_cons_of_mem _ hq)) hpw2.2
    refine ⟨r0 * M.fdiv m0 * y0 + xr, ?_, ?_, ?_⟩
    · rw [crt_loop, if_neg (by omega : ¬m0 = 0), hy0ok, hxr]
    · intro i hi
      match i with
      | 0 =>
        show r0 * M.fdiv m0 * y0 + xr ≡ r0 [ZMOD m0]
        have h01 : r0 * M.fdiv m0 * y0 ≡ r0 * 1 [ZMOD m0] := by
          have heq : r0 * M.fdiv m0 * y0 = r0 * (M.fdiv m0 * y0) := by ring
          rw [heq]
          exact hy0c.mul_left r0
        have h02 : xr ≡ 0 [ZMOD m0] :=
          Int.modEq_zero_iff_dvd.mpr (hxrd m0 (fun q hq => (hpw2.1 q hq).1))
        have h03 := h01.add h02
        simpa using h03
      | Nat.succ j =>
        have hj : j < rest.length := by simpa using hi
        show r0 * M.fdiv m0 * y0 + xr ≡ (rest.get ⟨j, hj⟩).1 [ZMOD (rest.get ⟨j, hj⟩).2]
        have hmem : rest.get ⟨j, hj⟩ ∈ rest := List.get_mem rest j hj
        have hterm : r0 * M.fdiv m0 * y0 ≡ 0 [ZMOD (rest.get ⟨j, hj⟩).2] := by
          apply Int.modEq_zero_iff_dvd.mpr
          have hd := (hpw2.1 _ hmem).2
          have heq : r0 * M.fdiv m0 * y0 = M.fdiv m0 * (r0 * y0) := by ring
          rw [heq]
          exact hd.mul_right _
        have h03 := hterm.add (hxrc j hj)
        simpa using h03
    · intro t ht
      have h1t : t ∣ M.fdiv m0 := ht (r0, m0) (List.mem_cons_self _ rest)
      refine dvd_add ?_ (hxrd t (fun q hq => ht q (List.mem_cons_of_mem _ hq)))
      have heq : r0 * M.fdiv m0 * y0 = M.fdiv m0 * (r0 * y0) := by ring
      rw [heq]
      exact h1t.mul_right _

/-! Claim theorems. -/

/-- C1 (counterexample): the claimed range invariant fails for mod_power
at exponent 0 and modulus 1, where the function returns 1, not a value
in [0, 1). -/
theorem mod_ops_range_cx : mod_power 0 0 1 = 1 ∧ ¬(mod_power 0 0 1 < 1) := by
  have h := mod_power_of_nonpos 0 0 1 le_rfl
  exact ⟨h, by rw [h]; norm_num⟩

/-- C1 (amended): for every modulus m > 0, mod_add, mod_subtract and
mod_multiply return a value in [0, m); mod_power does so for every
exponent exp ≥ 0 except in the single case exp = 0 and m = 1, where it
returns 1 (so its value is in [0, m) whenever exp ≥ 1 or m > 1). -/
theorem mod_ops_range (a b m : Int) (hm : 0 < m) :
    (0 ≤ mod_add a b m ∧ mod_add a b m < m) ∧
    (0 ≤ mod_subtract a b m ∧ mod_subtract a b m < m) ∧
    (0 ≤ mod_multiply a b m ∧ mod_multiply a b m < m) ∧
    (∀ base exp : Int, 0 ≤ exp → (1 ≤ exp ∨ 1 < m) →
      0 ≤ mod_power base exp m ∧ mod_power base exp m < m) := by
  refine ⟨?_, ?_, ?_, ?_⟩
  · rw [mod_add_eq a b m hm]
    exact ⟨Int.emod_nonneg _ hm.ne.symm, Int.emod_lt_of_pos _ hm⟩
  · rw [mod_subtract_eq a b m hm]
    exact ⟨Int.emod_nonneg _ hm.ne.symm, Int.emod_lt_of_pos _ hm⟩
  · rw [mod_multiply_eq a b m hm]
    exact ⟨Int.emod_nonneg _ hm.ne.symm, Int.emod_lt_of_pos _ hm⟩
  · intro base exp he hcase
    rcases hcase with h1 | h1
    · exact mod_power_range base exp m hm (by omega)
    · by_cases h2 : 0 < exp
      · exact mod_power_range base exp m hm h2
      · rw [mod_power_of_nonpos base exp m (by omega)]
        omega

theorem mod_ops_range_witness :
    (0:Int) < 12 ∧ (0 ≤ mod_add 7 8 12 ∧ mod_add 7 8 12 < 12) ∧
    (0 ≤ mod_power 2 3 12 ∧ mod_power 2 3 12 < 12) :=
  ⟨by decide, (mod_ops_range 7 8 12 (by decide)).1,
    (mod_ops_range 7 8 12 (by decide)).2.2.2 2 3 (by decide) (Or.inl (by decide))⟩

/-- C2 (counterexample): the round trip fails for a keypair generated
from equal primes: with p = q = 3 the message 3 (valid, since 3 < n = 9)
encrypts to 0 and decrypts to 0, not 3. -/
theorem rsa_round_trip_cx :
    ∃ K : RSAKeys, generate_rsa_keys 3 3 = .ok K ∧ (0:Int) ≤ 3 ∧ (3:Int) < K.n ∧
      rsa_decrypt (rsa_encrypt 3 K.e K.n) K.d K.n ≠ 3 := by
  obtain ⟨K, hok, hn, hphi, he3, hgcd, hd0, hd1, hcong⟩ :=
    generate_rsa_keys_spec 3 3 (is_prime_complete 3 (by norm_num) Int.prime_three)
      (is_prime_complete 3 (by norm_num) Int.prime_three)
  have hn9 : K.n = 9 := by rw [hn]; norm_num
  have hphi4 : K.phi = 4 := by rw [hphi]; norm_num
  have hdpos : 1 ≤ K.d := by
    by_contra hd
    have hdz : K.d = 0 := by omega
    rw [hdz, mul_zero, hphi4] at hcong
    have hcc : (0:Int) % 4 = 1 % 4 := hcong
    norm_num at hcc
  have hE2 : 2 ≤ K.e.toNat := by omega
  have henc : rsa_encrypt 3 K.e K.n = 0 := by
    rw [rsa_encrypt, hn9, mod_power_spec 3 K.e 9 (by norm_num) (by omega)]
    apply Int.emod_eq_zero_of_dvd
    have hsplit : K.e.toNat = 2 + (K.e.toNat - 2) := by omega
    rw [hsplit, pow_add]
    exact ⟨3 ^ (K.e.toNat - 2), by norm_num⟩
  refine ⟨K, hok, by norm_num, by rw [hn9]; norm_num, ?_⟩
  rw [henc, rsa_decrypt, hn9, mod_power_spec 0 K.d 9 (by norm_num) (by omega),
    zero_pow (by omega : K.d.toNat ≠ 0)]
  norm_num

/-- C2 (amended): for distinct primes p and q, a keypair produced by a
single generate_rsa_keys call round-trips every message 0 ≤ m < n; in
particular the generated 61/53 keys recover the message 42. -/
theorem rsa_round_trip :
    (∀ p q msg : Int, 2 ≤ p → 2 ≤ q → Prime p → Prime q → p ≠ q →
      0 ≤ msg → msg < p * q →
      ∃ K : RSAKeys, generate_rsa_keys p q = .ok K ∧
        rsa_decrypt (rsa_encrypt msg K.e K.n) K.d K.n = msg) ∧
    (∃ K : RSAKeys, generate_rsa_keys 61 53 = .ok K ∧
      rsa_decrypt (rsa_encrypt 42 K.e K.n) K.d K.n = 42) := by
  have main : ∀ p q msg : Int, 2 ≤ p → 2 ≤ q → Prime p → Prime q → p ≠ q →
      0 ≤ msg → msg < p * q →
      ∃ K : RSAKeys, generate_rsa_keys p q = .ok K ∧
        rsa_decrypt (rsa_encrypt msg K.e K.n) K.d K.n = msg := by
    intro p q msg hp2 hq2 hpP hqP hne h0 hlt
    obtain ⟨K, hok, hn, hphi, he3, hgcd, hd0, hd1, hcong⟩ :=
      generate_rsa_keys_spec p q (is_prime_complete p hp2 hpP) (is_prime_complete q hq2 hqP)
    have hphi2 : 2 ≤ (p - 1) * (q - 1) := by
      rcases lt_or_gt_of_ne hne with h | h
      · nlinarith
      · nlinarith
    have hdpos : 1 ≤ K.d := by
      by_contra hd
      have hdz : K.d = 0 := by omega
      rw [hdz, mul_zero, hphi] at hcong
      have hcc : (0:Int) % ((p - 1) * (q - 1)) = 1 % ((p - 1) * (q - 1)) := hcong
      rw [Int.zero_emod, Int.emod_eq_of_lt (by omega) (by omega)] at hcc
      norm_num at hcc
    refine ⟨K, hok, ?_⟩
    rw [hn]
    refine rsa_roundtrip_core p q hp2 hq2 hpP hqP hne K.e K.d (by omega) hdpos ?_ msg h0 hlt
    rw [← hphi]
    exact hcong
  refine ⟨main, ?_⟩
  exact main 61 53 42 (by norm_num) (by norm_num)
    (by rw [Int.prime_iff_natAbs_prime]; norm_num)
    (by rw [Int.prime_iff_natAbs_prime]; norm_num)
    (by norm_num) (by norm_num) (by norm_num)

theorem rsa_round_trip_witness :
    (2:Int) ≤ 3 ∧ (2:Int) ≤ 5 ∧ (3:Int) ≠ 5 ∧ (0:Int) ≤ 2 ∧ (2:Int) < 3 * 5 ∧
    ∃ K : RSAKeys, generate_rsa_keys 3 5 = .ok K ∧
      rsa_decrypt (rsa_encrypt 2 K.e K.n) K.d K.n = 2 :=
  ⟨by decide, by decide, by decide, by decide, by decide,
    rsa_round_trip.1 3 5 2 (by norm_num) (by norm_num) Int.prime_three
      (by rw [Int.prime_iff_natAbs_prime]; norm_num) (by norm_num) (by norm_num) (by norm_num)⟩

/-- C3: the CRT solver returns the unique solution of the system in
[0, M) for positive pairwise-coprime moduli, and solves the textbook
instance remainders [2,3,2], moduli [3,5,7] as 23 with modulus 105. -/
theorem crt_solve_correct :
    (∀ (rs ms : List Int) (hlen : rs.length = ms.length), rs ≠ [] →
      (∀ m ∈ ms, 0 < m) → ms.Pairwise (fun a b => Int.gcd a b = 1) →
      ∃ x, chinese_remainder_theorem rs ms = .ok x ∧
        0 ≤ x ∧ x < crt_modulus ms ∧
        (∀ i (hi : i < ms.length),
          x ≡ rs.get ⟨i, by omega⟩ [ZMOD ms.get ⟨i, hi⟩]) ∧
        (∀ z : Int, 0 ≤ z → z < crt_modulus ms →
          (∀ i (hi : i < ms.length), z ≡ rs.get ⟨i, by omega⟩ [ZMOD ms.get ⟨i, hi⟩]) →
          z = x)) ∧
    chinese_remainder_theorem [2, 3, 2] [3, 5, 7] = .ok 23 ∧
    crt_modulus [3, 5, 7] = 105 := by
  have main : ∀ (rs ms : List Int) (hlen : rs.length = ms.length), rs ≠ [] →
      (∀ m ∈ ms, 0 < m) → ms.Pairwise (fun a b => Int.gcd a b = 1) →
      ∃ x, chinese_remainder_theorem rs ms = .ok x ∧
        0 ≤ x ∧ x < crt_modulus ms ∧
        (∀ i (hi : i < ms.length),
          x ≡ rs.get ⟨i, by omega⟩ [ZMOD ms.get ⟨i, hi⟩]) ∧
        (∀ z : Int, 0 ≤ z → z < crt_modulus ms →
          (∀ i (hi : i < ms.length), z ≡ rs.get ⟨i, by omega⟩ [ZMOD ms.get ⟨i, hi⟩]) →
          z = x) := by
    intro rs ms hlen hne hpos hpw
    set M := crt_modulus ms with hMdef
    have hMprod : M = ms.prod := crt_modulus_eq_prod ms
    have hMpos : 0 < M := by
      rw [hMprod]
      exact List.prod_pos hpos
    have hzip_len : (rs.zip ms).length = ms.length := by
      rw [List.length_zip, hlen]
      exact min_self _
    have h1 : ∀ p ∈ rs.zip ms, 0 < p.2 ∧ Int.gcd (M.fdiv p.2) p.2 = 1 := by
      intro p hp
      have hp2 := (List.of_mem_zip hp).2
      refine ⟨hpos p.2 hp2, ?_⟩
      rw [hMprod]
      exact coprime_fdiv_of_mem ms hpos hpw p.2 hp2
    have h2 : (rs.zip ms).Pairwise (fun p q => p.2 ∣ M.fdiv q.2 ∧ q.2 ∣ M.fdiv p.2) := by
      have hms := pairwise_dvd_fdiv ms hpos
      rw [← hMprod] at hms
      have hmap : (rs.zip ms).map Prod.snd = ms := List.map_snd_zip rs ms (le_of_eq hlen.symm)
      rw [← hmap] at hms
      exact List.pairwise_map.mp hms
    obtain ⟨x, hok, hcong, hdvd⟩ := crt_loop_spec M (rs.zip ms) h1 h2
    have hckey : ∀ i (hi : i < ms.length),
        x.fmod M ≡ rs.get ⟨i, by omega⟩ [ZMOD ms.get ⟨i, hi⟩] := by
      intro i hi
      have hi' : i < (rs.zip ms).length := by omega
      have hg := hcong i hi'
      have hgz : (rs.zip ms).get ⟨i, hi'⟩ = (rs.get ⟨i, by omega⟩, ms.get ⟨i, hi⟩) := by
        simp [List.get_eq_getElem, List.getElem_zip]
      rw [hgz] at hg
      have hmi : ms.get ⟨i, hi⟩ ∣ M := by
        rw [hMprod]
        exact List.dvd_prod (List.get_mem ms i hi)
      have hx : x.fmod M ≡ x [ZMOD ms.get ⟨i, hi⟩] := by
        rw [Int.fmod_eq_emod _ hMpos.le]
        exact Int.emod_emod_of_dvd x hmi
      exact hx.trans hg
    refine ⟨x.fmod M, ?_, (fmod_bounds x M hMpos).1, (fmod_bounds x M hMpos).2, hckey, ?_⟩
    · rw [chinese_remainder_theorem, if_neg (not_not_intro hlen), ← hMdef, hok]
    · intro z hz0 hz1 hzc
      have hall : ∀ m ∈ ms, m ∣ z - x.fmod M := by
        intro m hm
        obtain ⟨⟨i, hi⟩, rfl⟩ := List.mem_iff_get.mp hm
        have hz := hzc i hi
        have hmx := hckey i hi
        exact (Int.ModEq.dvd (hmx.trans hz.symm) : _)
      have hMdvd : M ∣ z - x.fmod M := by
        have hpp := pairwise_coprime_prod_dvd ms (z - x.fmod M) hpw hall
        rwa [← hMprod] at hpp
      have hb := fmod_bounds x M hMpos
      have habs : |z - x.fmod M| < M := by
        rw [abs_lt]
        constructor <;> omega
      have hz := Int.eq_zero_of_abs_lt_dvd hMdvd habs
      omega
  refine ⟨main, ?_, by decide⟩
  obtain ⟨x, hok, h0, h1, hc, huniq⟩ := main [2, 3, 2] [3, 5, 7] (by decide) (by decide)
    (by decide) (by decide)
  have h23 : (23:Int) = x := by
    apply huniq 23 (by decide) (by decide) (by decide)
  rw [hok, h23]

theorem crt_solve_correct_witness :
    ([1] : List Int).length = ([2] : List Int).length ∧ ([1] : List Int) ≠ [] ∧
    (∀ m ∈ ([2] : List Int), 0 < m) ∧
    (([2] : List Int).Pairwise (fun a b => Int.gcd a b = 1)) ∧
    ∃ x, chinese_remainder_theorem [1] [2] = .ok x ∧
      0 ≤ x ∧ x < crt_modulus [2] ∧
      (∀ i (hi : i < ([2] : List Int).length),
        x ≡ ([1] : List Int).get ⟨i, by exact hi⟩ [ZMOD ([2] : List Int).get ⟨i, hi⟩]) ∧
      (∀ z : Int, 0 ≤ z → z < crt_modulus [2] →
        (∀ i (hi : i < ([2] : List Int).length),
          z ≡ ([1] : List Int).get ⟨i, by exact hi⟩ [ZMOD ([2] : List Int).get ⟨i, hi⟩]) →
        z = x) :=
  ⟨by decide, by decide, by decide, by decide,
    crt_solve_correct.1 [1] [2] (by decide) (by decide) (by decide) (by decide)⟩

/-- C4 (counterexample): at m = 1 every a is coprime to m and the inverse
0 is returned, but mod_multiply(a, 0, 1) is 0, not 1. -/
theorem mod_inverse_spec_cx : Int.gcd 1 1 = 1 ∧ mod_inverse 1 1 = .ok 0 ∧
    mod_multiply 1 0 1 ≠ 1 := by
  obtain ⟨v, hok, h0, h1, _⟩ := mod_inverse_ok 1 1 (by decide) (by decide)
  have hv : v = 0 := by omega
  rw [hv] at hok
  exact ⟨by decide, hok, by decide⟩

/-- C4 (amended): for m > 0, mod_inverse(a, m) fails with the
no-inverse error iff gcd(a, m) ≠ 1, and when a is coprime to m it
returns a value v in [0, m) with a * v ≡ 1 (mod m); the literal equation
mod_multiply(a, v, m) = 1 holds whenever m > 1 (at m = 1 the product
reduces to 0). -/
theorem mod_inverse_spec (a m : Int) (hm : 0 < m) :
    (mod_inverse a m = .error ("Modular inverse does not exist") ↔ Int.gcd a m ≠ 1) ∧
    (Int.gcd a m = 1 → ∃ v, mod_inverse a m = .ok v ∧ 0 ≤ v ∧ v < m ∧
      a * v ≡ 1 [ZMOD m] ∧ (1 < m → mod_multiply a v m = 1)) := by
  constructor
  · constructor
    · intro herr hg
      obtain ⟨v, hok, _⟩ := mod_inverse_ok a m hm hg
      rw [hok] at herr
      simp at herr
    · exact mod_inverse_err a m hm
  · intro hg
    obtain ⟨v, hok, h0, h1, hc⟩ := mod_inverse_ok a m hm hg
    refine ⟨v, hok, h0, h1, hc, ?_⟩
    intro hm1
    rw [mod_multiply_eq a v m hm]
    calc a * v % m = 1 % m := hc
      _ = 1 := Int.emod_eq_of_lt (by omega) (by omega)

theorem mod_inverse_spec_witness :
    (0:Int) < 7 ∧
    ((mod_inverse 3 7 = .error ("Modular inverse does not exist") ↔ Int.gcd 3 7 ≠ 1) ∧
    (Int.gcd 3 7 = 1 → ∃ v, mod_inverse 3 7 = .ok v ∧ 0 ≤ v ∧ v < 7 ∧
      (3:Int) * v ≡ 1 [ZMOD 7] ∧ (1 < (7:Int) → mod_multiply 3 v 7 = 1))) :=
  ⟨by decide, mod_inverse_spec 3 7 (by decide)⟩

/-- C5 (counterexample): at m = 1 the zero-exponent power is 1, while
1 mod 1 is 0, so the claimed identity mod_power(b,0,m) = 1 mod m fails. -/
theorem mod_power_zero_cx : mod_power 5 0 1 = 1 ∧ (1 : Int).fmod 1 = 0 ∧
    mod_power 5 0 1 ≠ (1 : Int).fmod 1 := by
  have h := mod_power_of_nonpos 5 0 1 le_rfl
  refine ⟨h, by decide, ?_⟩
  rw [h]
  decide

/-- C5 (amended): for every base b and modulus m > 0, mod_power(b, 0, m)
returns exactly 1 (which agrees with 1 mod m precisely when m > 1). -/
theorem mod_power_zero_exp (b m : Int) (hm : 0 < m) : mod_power b 0 m = 1 :=
  mod_power_of_nonpos b 0 m le_rfl

theorem mod_power_zero_exp_witness : (0:Int) < 12 ∧ mod_power 9 0 12 = 1 :=
  ⟨by decide, mod_power_zero_exp 9 12 (by decide)⟩

/-- C6 (counterexample): for the prime inputs p = q = 2 the generated
keys have e = 3 ≥ phi = 1, violating 1 < e < phi, and (e * d) mod phi
is 0, not 1. -/
theorem generate_rsa_keys_invariants_cx :
    ∃ K : RSAKeys, generate_rsa_keys 2 2 = .ok K ∧ K.phi = 1 ∧
      ¬(K.e < K.phi) ∧ (K.e * K.d).fmod K.phi ≠ 1 := by
  obtain ⟨K, hok, hn, hphi, he3, hgcd, hd0, hd1, hcong⟩ :=
    generate_rsa_keys_spec 2 2 (is_prime_complete 2 (by norm_num) Int.prime_two)
      (is_prime_complete 2 (by norm_num) Int.prime_two)
  have hphi1 : K.phi = 1 := by rw [hphi]; norm_num
  refine ⟨K, hok, hphi1, by omega, ?_⟩
  rw [hphi1, Int.fmod_eq_emod _ (by norm_num : (0:Int) ≤ 1), Int.emod_one]
  norm_num

/-- C6 (amended): for all prime inputs p and q the generated keypair
satisfies n = p*q, phi = (p-1)*(q-1), 1 < e, gcd(e, phi) = 1, and,
whenever phi > 1, (e * d) mod phi = 1; the upper bound e < phi of the
original claim fails for small primes. -/
theorem generate_rsa_keys_invariants (p q : Int) (hp2 : 2 ≤ p) (hq2 : 2 ≤ q)
    (hp : Prime p) (hq : Prime q) :
    ∃ K : RSAKeys, generate_rsa_keys p q = .ok K ∧ K.n = p * q ∧
      K.phi = (p - 1) * (q - 1) ∧ 1 < K.e ∧ Int.gcd K.e K.phi = 1 ∧
      (1 < K.phi → (K.e * K.d).fmod K.phi = 1) := by
  obtain ⟨K, hok, hn, hphi, he3, hgcd, hd0, hd1, hcong⟩ :=
    generate_rsa_keys_spec p q (is_prime_complete p hp2 hp) (is_prime_complete q hq2 hq)
  refine ⟨K, hok, hn, hphi, by omega, hgcd, ?_⟩
  intro h1
  rw [Int.fmod_eq_emod _ (by omega : (0:Int) ≤ K.phi)]
  calc (K.e * K.d) % K.phi = 1 % K.phi := hcong
    _ = 1 := Int.emod_eq_of_lt (by omega) (by omega)

theorem generate_rsa_keys_invariants_witness :
    (2:Int) ≤ 3 ∧ (2:Int) ≤ 5 ∧
    ∃ K : RSAKeys, generate_rsa_keys 3 5 = .ok K ∧ K.n = 3 * 5 ∧
      K.phi = (3 - 1) * (5 - 1) ∧ 1 < K.e ∧ Int.gcd K.e K.phi = 1 ∧
      (1 < K.phi → (K.e * K.d).fmod K.phi = 1) :=
  ⟨by decide, by decide,
    generate_rsa_keys_invariants 3 5 (by norm_num) (by norm_num) Int.prime_three
      (by rw [Int.prime_iff_natAbs_prime]; norm_num)⟩

/-- C7: decrypting an encryption with the same key recovers the
upper-cased text, for the Caesar cipher with any integer shift and for
the Vigenere cipher with any non-empty alphabetic key. -/
theorem cipher_round_trip :
    (∀ (text : List Char) (shift : Int),
      caesar_cipher (caesar_cipher text shift false) shift true = text.map Char.toUpper) ∧
    (∀ (text key : List Char), key ≠ [] → (∀ c ∈ key, c.isAlpha = true) →
      ∃ enc, vigenere_cipher text key false = .ok enc ∧
        vigenere_cipher enc key true = .ok (text.map Char.toUpper)) :=
  ⟨caesar_round_trip, fun text key hk _ => vigenere_round_trip text key hk⟩

theorem cipher_round_trip_witness :
    caesar_cipher (caesar_cipher ['H', 'E', 'L', 'L', 'O'] 3 false) 3 true =
      (['H', 'E', 'L', 'L', 'O'] : List Char).map Char.toUpper ∧
    (['K', 'E', 'Y'] : List Char) ≠ [] ∧
    (∀ c ∈ (['K', 'E', 'Y'] : List Char), c.isAlpha = true) ∧
    ∃ enc, vigenere_cipher ['H', 'E', 'L', 'L', 'O'] ['K', 'E', 'Y'] false = .ok enc ∧
      vigenere_cipher enc ['K', 'E', 'Y'] true =
        .ok ((['H', 'E', 'L', 'L', 'O'] : List Char).map Char.toUpper) :=
  ⟨cipher_round_trip.1 ['H', 'E', 'L', 'L', 'O'] 3, by decide, by decide,
    cipher_round_trip.2 ['H', 'E', 'L', 'L', 'O'] ['K', 'E', 'Y'] (by decide) (by decide)⟩

/-- C8: for a prime p and a base coprime to p the Fermat verifier
accepts and reports result 1; in particular for (2, 7) and (3, 11). -/
theorem fermat_spec :
    (∀ a p : Int, 2 ≤ p → Prime p → Int.gcd a p = 1 →
      ∃ F : FermatResult, fermat_little_theorem a p = .ok F ∧ F.result = 1) ∧
    (∃ F : FermatResult, fermat_little_theorem 2 7 = .ok F ∧ F.result = 1) ∧
    (∃ F : FermatResult, fermat_little_theorem 3 11 = .ok F ∧ F.result = 1) := by
  refine ⟨fun a p h1 h2 h3 => fermat_result_one a p h1 h2 h3, ?_, ?_⟩
  · exact fermat_result_one 2 7 (by norm_num)
      (by rw [Int.prime_iff_natAbs_prime]; norm_num) (by decide)
  · exact fermat_result_one 3 11 (by norm_num)
      (by rw [Int.prime_iff_natAbs_prime]; norm_num) (by decide)

theorem fermat_spec_witness :
    (2:Int) ≤ 7 ∧ Int.gcd 2 7 = 1 ∧
    ∃ F : FermatResult, fermat_little_theorem 2 7 = .ok F ∧ F.result = 1 :=
  ⟨by decide, by decide,
    fermat_spec.1 2 7 (by norm_num) (by rw [Int.prime_iff_natAbs_prime]; norm_num) (by decide)⟩

/-- C9 (counterexample): with a zero-length key and a text containing no
letters the cipher does not fail at all: it returns the text unchanged. -/
theorem vigenere_empty_key_cx :
    vigenere_cipher ['1', '+', '2'] [] false = .ok ['1', '+', '2'] := by
  have h := vig_empty_ok false ['1', '+', '2'] 0 (by decide)
  have hmap : (['1', '+', '2'] : List Char).map Char.toUpper = ['1', '+', '2'] := by decide
  rw [vigenere_cipher]
  simp only [List.map_nil]
  rw [hmap]
  exact h

/-- C9 (amended): with a zero-length key the cipher fails (with Python's
division-by-zero error from indexing the empty key) iff the text
contains at least one character that upper-cases into A..Z; on
letter-free text it succeeds and returns the upper-cased text. -/
theorem vigenere_empty_key (text : List Char) (d : Bool) :
    (vigenere_cipher text [] d = .error ("integer division or modulo by zero") ↔
      ∃ c ∈ text, 'A' ≤ c.toUpper ∧ c.toUpper ≤ 'Z') ∧
    ((∀ c ∈ text, ¬('A' ≤ c.toUpper ∧ c.toUpper ≤ 'Z')) →
      vigenere_cipher text [] d = .ok (text.map Char.toUpper)) := by
  have hok : (∀ c ∈ text, ¬('A' ≤ c.toUpper ∧ c.toUpper ≤ 'Z')) →
      vigenere_cipher text [] d = .ok (text.map Char.toUpper) := by
    intro hno
    rw [vigenere_cipher]
    simp only [List.map_nil]
    exact vig_empty_ok d _ 0 (fun c hc => by
      obtain ⟨x, hx, rfl⟩ := List.mem_map.mp hc
      exact hno x hx)
  refine ⟨⟨?_, ?_⟩, hok⟩
  · intro herr
    by_contra hno
    rw [hok (fun c hc hcl => hno ⟨c, hc, hcl⟩)] at herr
    simp at herr
  · rintro ⟨c, hc, hcL⟩
    rw [vigenere_cipher]
    simp only [List.map_nil]
    exact vig_empty_err d _ 0 ⟨c.toUpper, List.mem_map_of_mem _ hc, hcL⟩

theorem vigenere_empty_key_witness :
    (vigenere_cipher ['A'] [] false = .error ("integer division or modulo by zero") ↔
      ∃ c ∈ (['A'] : List Char), 'A' ≤ c.toUpper ∧ c.toUpper ≤ 'Z') ∧
    ((∀ c ∈ (['A'] : List Char), ¬('A' ≤ c.toUpper ∧ c.toUpper ≤ 'Z')) →
      vigenere_cipher ['A'] [] false = .ok ((['A'] : List Char).map Char.toUpper)) :=
  vigenere_empty_key ['A'] false

/-- C10: mod_power never checks its documented precondition exp ≥ 0; on
any exponent exp ≤ 0 (negative included) and any modulus m ≠ 0 it
silently returns the initial accumulator 1. -/
theorem mod_power_nonpos_exp (base exp m : Int) (hm : m ≠ 0) (he : exp ≤ 0) :
    mod_power base exp m = 1 :=
  mod_power_of_nonpos base exp m he

theorem mod_power_nonpos_exp_witness :
    (7:Int) ≠ 0 ∧ (-3:Int) ≤ 0 ∧ mod_power 5 (-3) 7 = 1 :=
  ⟨by decide, by decide, mod_power_nonpos_exp 5 (-3) 7 (by decide) (by decide)⟩

end App
